import Mathlib

set_option maxHeartbeats 1000000

namespace AgiAgent

/-- Calendar timestamp as produced by the Python datetime library:
year, month, day, hour, minute, second, microsecond. -/
structure DateTime where
  year : Nat
  month : Nat
  day : Nat
  hour : Nat
  minute : Nat
  second : Nat
  microsecond : Nat
deriving DecidableEq

/-- Dynamic values held in Python dictionaries (step parameters, results, task context). -/
inductive Value where
  | vnone : Value
  | str : String → Value
  | int : Int → Value
  | bool : Bool → Value
  | list : List Value → Value
  | dict : List (String × Value) → Value

/-- Step types, from src/agi_agent/models/plan.py (class StepType). -/
inductive StepType where
  | reasoning
  | tool_call
  | decision
  | validation
  | synthesis
deriving DecidableEq

/-- Step statuses, from src/agi_agent/models/plan.py (class StepStatus). -/
inductive StepStatus where
  | pending
  | in_progress
  | completed
  | failed
  | skipped
deriving DecidableEq

/-- A single step of an execution plan, from src/agi_agent/models/plan.py (class PlanStep). -/
structure PlanStep where
  description : String
  step_type : StepType
  id : String
  step_number : Nat := 0
  status : StepStatus := StepStatus.pending
  tool_name : Option String := Option.none
  parameters : List (String × Value) := []
  expected_output : Option String := Option.none
  depends_on : List String := []
  started_at : Option DateTime := Option.none
  completed_at : Option DateTime := Option.none
  result : Option Value := Option.none
  error : Option String := Option.none
  estimated_duration : Option Nat := Option.none
  actual_duration : Option Nat := Option.none
  retry_count : Nat := 0
  max_retries : Nat := 3

/-- PlanStep.start from plan.py: sets status to in_progress and records the start
timestamp; the source performs no state check before doing so. -/
def PlanStep.start (step : PlanStep) (now : DateTime) : PlanStep :=
  { step with status := StepStatus.in_progress, started_at := Option.some now }

/-- PlanStep.fail from plan.py: sets status to failed, stores the error text and
increments retry_count. -/
def PlanStep.fail (step : PlanStep) (err : String) : PlanStep :=
  { step with
    status := StepStatus.failed
    error := Option.some err
    retry_count := step.retry_count + 1 }

/-- PlanStep.skip from plan.py: sets status to skipped. -/
def PlanStep.skip (step : PlanStep) : PlanStep :=
  { step with status := StepStatus.skipped }

/-- PlanStep.can_retry from plan.py. -/
def PlanStep.can_retry (step : PlanStep) : Bool :=
  step.retry_count < step.max_retries

/-- An execution plan, from src/agi_agent/models/plan.py (class ExecutionPlan). -/
structure ExecutionPlan where
  task_id : String
  steps : List PlanStep
  id : String
  created_at : DateTime
  description : Option String := Option.none
  estimated_total_duration : Option Nat := Option.none
  actual_total_duration : Option Nat := Option.none
  started_at : Option DateTime := Option.none
  completed_at : Option DateTime := Option.none
  current_step : Option String := Option.none

/-- ExecutionPlan.get_step_by_id from plan.py: first step in list order whose id matches. -/
def ExecutionPlan.get_step_by_id (p : ExecutionPlan) (step_id : String) : Option PlanStep :=
  p.steps.find? (fun s => s.id == step_id)

/-- Body of the dependency loop in ExecutionPlan. The source returns False when the
dependency id resolves to no step or to a step whose status is not completed. -/
def ExecutionPlan.dep_completed (p : ExecutionPlan) (dep_id : String) : Bool :=
  match p.get_step_by_id dep_id with
  | Option.none => false
  | Option.some dep_step => dep_step.status == StepStatus.completed

/-- The dependency check of ExecutionPlan from plan.py: every id in depends_on must
resolve to a step with status completed. -/
def ExecutionPlan.dependencies_satisfied (p : ExecutionPlan) (step : PlanStep) : Bool :=
  step.depends_on.all (fun dep_id => p.dep_completed dep_id)

/-- ExecutionPlan.get_next_step from plan.py: the first step in list order that is
pending and whose dependencies are satisfied. -/
def ExecutionPlan.get_next_step (p : ExecutionPlan) : Option PlanStep :=
  p.steps.find? (fun s => s.status == StepStatus.pending && p.dependencies_satisfied s)

/-- Result record of ExecutionPlan.get_progress from plan.py. The percentage is kept
as an exact rational. -/
structure Progress where
  total_steps : Nat
  completed_steps : Nat
  failed_steps : Nat
  progress_percentage : ℚ
  current_step : Option String
deriving DecidableEq

/-- ExecutionPlan.get_progress from plan.py: counts completed and failed steps and
computes the percentage, guarding the zero-step case. -/
def ExecutionPlan.get_progress (p : ExecutionPlan) : Progress :=
  let total_steps := p.steps.length
  let completed_steps := p.steps.countP (fun s => s.status == StepStatus.completed)
  let failed_steps := p.steps.countP (fun s => s.status == StepStatus.failed)
  { total_steps := total_steps
    completed_steps := completed_steps
    failed_steps := failed_steps
    progress_percentage :=
      if total_steps > 0 then (completed_steps : ℚ) / (total_steps : ℚ) * 100 else 0
    current_step := p.current_step }

/-- Declarative runnability: the step is pending and each dependency id resolves to a
completed step in the plan. -/
def Runnable (p : ExecutionPlan) (s : PlanStep) : Prop :=
  s.status = StepStatus.pending ∧
    ∀ dep_id ∈ s.depends_on,
      ∃ d, p.get_step_by_id dep_id = Option.some d ∧ d.status = StepStatus.completed

theorem dep_completed_iff (p : ExecutionPlan) (dep_id : String) :
    p.dep_completed dep_id = true ↔
      ∃ d, p.get_step_by_id dep_id = Option.some d ∧ d.status = StepStatus.completed := by
  unfold ExecutionPlan.dep_completed
  cases h : p.get_step_by_id dep_id with
  | none => simp
  | some d => simp [beq_iff_eq]

theorem runnable_iff (p : ExecutionPlan) (s : PlanStep) :
    (s.status == StepStatus.pending && p.dependencies_satisfied s) = true ↔ Runnable p s := by
  simp only [Bool.and_eq_true, beq_iff_eq, ExecutionPlan.dependencies_satisfied,
    List.all_eq_true, Runnable]
  constructor
  · rintro ⟨h1, h2⟩
    exact ⟨h1, fun d hd => (dep_completed_iff p d).1 (h2 d hd)⟩
  · rintro ⟨h1, h2⟩
    exact ⟨h1, fun d hd => (dep_completed_iff p d).2 (h2 d hd)⟩

theorem find_eq_some_iff {α : Type} (pred : α → Bool) (l : List α) (s : α) :
    l.find? pred = Option.some s ↔
      ∃ l₁ l₂, l = l₁ ++ s :: l₂ ∧ pred s = true ∧ ∀ t ∈ l₁, pred t = false := by
  induction l with
  | nil => simp
  | cons a l ih =>
    by_cases h : pred a = true
    · rw [List.find?_cons_of_pos _ h]
      constructor
      · intro hs
        have : a = s := by injection hs
        subst this
        exact ⟨[], l, rfl, h, by simp⟩
      · rintro ⟨l₁, l₂, heq, hs, hall⟩
        cases l₁ with
        | nil =>
          simp only [List.nil_append, List.cons.injEq] at heq
          rw [heq.1]
        | cons b l₁ =>
          simp only [List.cons_append, List.cons.injEq] at heq
          have hb : pred b = false := hall b (by simp)
          rw [heq.1] at h
          rw [h] at hb
          cases hb
    · have h0 : pred a = false := by
        cases hpa : pred a with
        | true => exact absurd hpa h
        | false => rfl
      rw [List.find?_cons_of_neg _ (by simp [h0])]
      rw [ih]
      constructor
      · rintro ⟨l₁, l₂, heq, hs, hall⟩
        refine ⟨a :: l₁, l₂, by rw [heq, List.cons_append], hs, ?_⟩
        intro t ht
        rcases List.mem_cons.1 ht with rfl | ht
        · exact h0
        · exact hall t ht
      · rintro ⟨l₁, l₂, heq, hs, hall⟩
        cases l₁ with
        | nil =>
          simp only [List.nil_append, List.cons.injEq] at heq
          rw [← heq.1] at hs
          rw [hs] at h0
          cases h0
        | cons b l₁ =>
          simp only [List.cons_append, List.cons.injEq] at heq
          refine ⟨l₁, l₂, heq.2, hs, fun t ht => hall t (by simp [ht])⟩

/-- C2: get_next_step returns the first step in list order that is pending with all
depends_on ids resolving to completed steps; it returns none exactly when no such
step exists; consequently a returned step has every dependency id resolving to a
completed step (so an uncompleted or unresolvable dependency blocks the step). -/
theorem get_next_step_spec (p : ExecutionPlan) :
    (∀ s, p.get_next_step = Option.some s ↔
        ∃ l₁ l₂, p.steps = l₁ ++ s :: l₂ ∧ Runnable p s ∧ ∀ t ∈ l₁, ¬ Runnable p t) ∧
    (p.get_next_step = Option.none ↔ ∀ s ∈ p.steps, ¬ Runnable p s) ∧
    (∀ s dep_id, p.get_next_step = Option.some s → dep_id ∈ s.depends_on →
        ∃ d, p.get_step_by_id dep_id = Option.some d ∧ d.status = StepStatus.completed) := by
  have hpred : ∀ s, (s.status == StepStatus.pending && p.dependencies_satisfied s) = true ↔
      Runnable p s := runnable_iff p
  refine ⟨?_, ?_, ?_⟩
  · intro s
    rw [ExecutionPlan.get_next_step, find_eq_some_iff]
    constructor
    · rintro ⟨l₁, l₂, heq, hs, hall⟩
      refine ⟨l₁, l₂, heq, (hpred s).1 hs, fun t ht hr => ?_⟩
      have := hall t ht
      rw [(hpred t).2 hr] at this
      cases this
    · rintro ⟨l₁, l₂, heq, hs, hall⟩
      refine ⟨l₁, l₂, heq, (hpred s).2 hs, fun t ht => ?_⟩
      cases hpt : (t.status == StepStatus.pending && p.dependencies_satisfied t) with
      | false => rfl
      | true => exact absurd ((hpred t).1 hpt) (hall t ht)
  · rw [ExecutionPlan.get_next_step, List.find?_eq_none]
    constructor
    · intro h s hs hr
      exact h s hs ((hpred s).2 hr)
    · intro h s hs hp
      exact h s hs ((hpred s).1 hp)
  · intro s dep_id hnext hdep
    rw [ExecutionPlan.get_next_step, find_eq_some_iff] at hnext
    rcases hnext with ⟨l₁, l₂, heq, hs, hall⟩
    exact ((hpred s).1 hs).2 dep_id hdep

/-- Fully specified sample step used for concrete instantiations. -/
def sampleStep (i : String) (st : StepStatus) (deps : List String) : PlanStep :=
  { description := "sample", step_type := StepType.reasoning, id := i, step_number := 0,
    status := st, tool_name := Option.none, parameters := [], expected_output := Option.none,
    depends_on := deps, started_at := Option.none, completed_at := Option.none,
    result := Option.none, error := Option.none, estimated_duration := Option.some 60,
    actual_duration := Option.none, retry_count := 0, max_retries := 3 }

/-- Fixed sample timestamp. -/
def epoch : DateTime := ⟨2024, 1, 1, 0, 0, 0, 0⟩

/-- Sample plan builder. -/
def samplePlan (steps : List PlanStep) : ExecutionPlan :=
  { task_id := "task-1", steps := steps, id := "plan-1", created_at := epoch,
    description := Option.none, estimated_total_duration := Option.none,
    actual_total_duration := Option.none, started_at := Option.none,
    completed_at := Option.none, current_step := Option.none }

/-- Witness for C2: in a plan with a completed step a and a pending step b depending
on a, get_next_step returns b, and the theorem yields that the dependency a resolves
to a completed step. -/
theorem get_next_step_spec_witness :
    ∃ d, (samplePlan [sampleStep "a" StepStatus.completed [],
        sampleStep "b" StepStatus.pending ["a"]]).get_step_by_id "a" = Option.some d ∧
      d.status = StepStatus.completed :=
  (get_next_step_spec (samplePlan [sampleStep "a" StepStatus.completed [],
      sampleStep "b" StepStatus.pending ["a"]])).2.2
    (sampleStep "b" StepStatus.pending ["a"]) "a" rfl (by simp [sampleStep])

/-- C8 counterexample: called on a step in the terminal state completed, start() does
not fail with any error; it changes the step, setting its status to in_progress. -/
theorem start_on_terminal_changes_step :
    ((sampleStep "c" StepStatus.completed []).start epoch).status = StepStatus.in_progress ∧
      (sampleStep "c" StepStatus.completed []).status = StepStatus.completed :=
  ⟨rfl, rfl⟩

/-- C8 amended: start() unconditionally sets the status to in_progress and records
the start timestamp, whatever the prior status (pending, failed, or a terminal one);
no InvalidStateError exists in the code and no other field is changed. -/
theorem start_spec (step : PlanStep) (now : DateTime) :
    (step.start now).status = StepStatus.in_progress ∧
    (step.start now).started_at = Option.some now ∧
    (step.start now).id = step.id ∧
    (step.start now).description = step.description ∧
    (step.start now).step_type = step.step_type ∧
    (step.start now).depends_on = step.depends_on ∧
    (step.start now).retry_count = step.retry_count ∧
    (step.start now).max_retries = step.max_retries ∧
    (step.start now).completed_at = step.completed_at ∧
    (step.start now).result = step.result ∧
    (step.start now).error = step.error :=
  ⟨rfl, rfl, rfl, rfl, rfl, rfl, rfl, rfl, rfl, rfl, rfl⟩

/-- C9: get_progress reports the step counts, a percentage that satisfies
percentage × total = completed × 100 (hence equals completed / total × 100 whenever
total > 0), exactly 0 when the plan has zero steps, and two calls with no state
change in between return identical results. -/
theorem get_progress_spec (p : ExecutionPlan) :
    (p.get_progress).total_steps = p.steps.length ∧
    (p.get_progress).completed_steps =
      p.steps.countP (fun s => s.status == StepStatus.completed) ∧
    (p.get_progress).failed_steps =
      p.steps.countP (fun s => s.status == StepStatus.failed) ∧
    (p.get_progress).progress_percentage * (p.steps.length : ℚ) =
      ((p.get_progress).completed_steps : ℚ) * 100 ∧
    (0 < p.steps.length → (p.get_progress).progress_percentage =
      ((p.get_progress).completed_steps : ℚ) / (p.steps.length : ℚ) * 100) ∧
    (p.steps.length = 0 → (p.get_progress).progress_percentage = 0) ∧
    p.get_progress = p.get_progress := by
  refine ⟨rfl, rfl, rfl, ?_, ?_, ?_, rfl⟩
  · by_cases h : 0 < p.steps.length
    · have hne : (p.steps.length : ℚ) ≠ 0 := by
        exact_mod_cast Nat.pos_iff_ne_zero.1 h
      simp only [ExecutionPlan.get_progress, h, if_pos]
      field_simp
    · have h0 : p.steps.length = 0 := Nat.eq_zero_of_not_pos h
      have hnil : p.steps = [] := List.length_eq_zero.1 h0
      simp [ExecutionPlan.get_progress, hnil]
  · intro h
    have hne : (p.steps.length : ℚ) ≠ 0 := by
      exact_mod_cast Nat.pos_iff_ne_zero.1 h
    simp only [ExecutionPlan.get_progress, h, if_pos]
  · intro h
    simp [ExecutionPlan.get_progress, h]

/-- Witness for C9: the percentage of the zero-step plan is exactly 0. -/
theorem get_progress_spec_witness :
    ((samplePlan []).get_progress).progress_percentage = 0 :=
  (get_progress_spec (samplePlan [])).2.2.2.2.2.1 rfl

/-- Safety levels, from src/agi_agent/core/safety_controller.py (class SafetyLevel). -/
inductive SafetyLevel where
  | low
  | medium
  | high
  | critical
deriving DecidableEq

/-- Risk categories, from safety_controller.py (class RiskCategory). -/
inductive RiskCategory where
  | data_access
  | system_modification
  | network_access
  | code_execution
  | file_operations
  | external_communication
deriving DecidableEq

/-- Result of a safety check, from safety_controller.py (class SafetyResult). -/
structure SafetyResult where
  approved : Bool
  risk_level : SafetyLevel
  risk_categories : List RiskCategory
  reason : String
  requires_human_approval : Bool := false
  suggested_modifications : List String := []

/-- XingAgent._request_human_approval from agent.py: formats an approval prompt and
returns False — deny by default, since no interactive channel is wired. -/
def request_human_approval (_step : PlanStep) (_reason : String) : Bool :=
  false

/-- Aggregate result dictionary returned by XingAgent._execute_plan in agent.py. -/
structure ExecResult where
  results : List Value
  tools_used : List String
  safety_checks : Nat
  success : Bool

/-- Set insertion for the tools_used set of the executor (Python set.add). -/
def setAdd (l : List String) (x : String) : List String :=
  if x ∈ l then l else l ++ [x]

/-- Dispatch of one approved step in XingAgent._execute_plan: run the step (an
exception propagates), append its result, and record the tool name when the step
names a tool (Python truthiness: a present, non-empty string). -/
def dispatch_step (execute_step : PlanStep → Except String Value) (step : PlanStep)
    (results : List Value) (tools_used : List String) :
    Except String (List Value × List String) :=
  match execute_step step with
  | Except.error e => Except.error e
  | Except.ok step_result =>
      let results := results ++ [step_result]
      let tools_used :=
        match step.tool_name with
        | Option.some t => if t == "" then tools_used else setAdd tools_used t
        | Option.none => tools_used
      Except.ok (results, tools_used)

/-- Loop of XingAgent._execute_plan from agent.py: iterate the plan's steps in list
order; run the safety check and count it; on denial consult the (always denying)
human-approval path when requested and otherwise just continue to the next step;
on approval dispatch the step. Step statuses are never modified. -/
def execute_plan_loop (safety_check : PlanStep → SafetyResult)
    (execute_step : PlanStep → Except String Value) :
    List PlanStep → List Value → List String → Nat → Except String ExecResult
  | [], results, tools_used, safety_checks =>
      Except.ok { results := results, tools_used := tools_used,
                  safety_checks := safety_checks, success := true }
  | step :: rest, results, tools_used, safety_checks =>
      let safety_result := safety_check step
      let n := safety_checks + 1
      if safety_result.approved then
        match dispatch_step execute_step step results tools_used with
        | Except.error e => Except.error e
        | Except.ok (results2, tools2) =>
            execute_plan_loop safety_check execute_step rest results2 tools2 n
      else if safety_result.requires_human_approval then
        if request_human_approval step safety_result.reason then
          match dispatch_step execute_step step results tools_used with
          | Except.error e => Except.error e
          | Except.ok (results2, tools2) =>
              execute_plan_loop safety_check execute_step rest results2 tools2 n
        else
          execute_plan_loop safety_check execute_step rest results tools_used n
      else
        execute_plan_loop safety_check execute_step rest results tools_used n

/-- XingAgent._execute_plan from agent.py, starting from empty accumulators. The
returned dictionary always carries success = True. -/
def execute_plan (safety_check : PlanStep → SafetyResult)
    (execute_step : PlanStep → Except String Value) (plan : ExecutionPlan) :
    Except String ExecResult :=
  execute_plan_loop safety_check execute_step plan.steps [] [] 0

/-- Stub safety gate approving every step. -/
def approveAll : PlanStep → SafetyResult := fun _ =>
  { approved := true, risk_level := SafetyLevel.low, risk_categories := [],
    reason := "Action approved", requires_human_approval := false,
    suggested_modifications := [] }

/-- Stub step execution returning a value tagged with the step id. -/
def okExec : PlanStep → Except String Value := fun step => Except.ok (Value.str step.id)

theorem execute_plan_loop_success (safety_check : PlanStep → SafetyResult)
    (execute_step : PlanStep → Except String Value) :
    ∀ (steps : List PlanStep) (results : List Value) (tools_used : List String)
      (safety_checks : Nat) (r : ExecResult),
      execute_plan_loop safety_check execute_step steps results tools_used safety_checks =
        Except.ok r → r.success = true := by
  intro steps
  induction steps with
  | nil =>
    intro results tools_used safety_checks r h
    simp only [execute_plan_loop] at h
    cases h
    rfl
  | cons step rest ih =>
    intro results tools_used safety_checks r h
    simp only [execute_plan_loop] at h
    by_cases ha : (safety_check step).approved
    · rw [if_pos ha] at h
      cases hd : dispatch_step execute_step step results tools_used with
      | error e => rw [hd] at h; cases h
      | ok pr =>
        rw [hd] at h
        exact ih pr.1 pr.2 (safety_checks + 1) r h
    · rw [if_neg ha] at h
      by_cases hr : (safety_check step).requires_human_approval
      · rw [if_pos hr] at h
        simp only [request_human_approval, if_neg] at h
        exact ih results tools_used (safety_checks + 1) r h
      · rw [if_neg hr] at h
        exact ih results tools_used (safety_checks + 1) r h

/-- C1 counterexample: a plan containing a step whose status is failed still yields
an aggregate result with success = true, refuting that any execution ending with a
failed step present reports success = false. -/
theorem execute_plan_failed_step_success :
    (samplePlan [sampleStep "f" StepStatus.failed []]).steps.countP
        (fun s => s.status == StepStatus.failed) = 1 ∧
      execute_plan approveAll okExec (samplePlan [sampleStep "f" StepStatus.failed []]) =
        Except.ok { results := [Value.str "f"], tools_used := [], safety_checks := 1,
                    success := true } :=
  ⟨rfl, rfl⟩

/-- C1 amended: whenever _execute_plan returns an aggregate result at all (that is,
no dispatched step raised), the success field of that result is true, regardless of
the statuses of the plan's steps and of any safety denials; a step exception instead
aborts the loop with no aggregate result. -/
theorem execute_plan_success_spec (safety_check : PlanStep → SafetyResult)
    (execute_step : PlanStep → Except String Value) (plan : ExecutionPlan)
    (r : ExecResult) (h : execute_plan safety_check execute_step plan = Except.ok r) :
    r.success = true :=
  execute_plan_loop_success safety_check execute_step plan.steps [] [] 0 r h

/-- Witness for C1 amended, at a one-step plan with approving gate and ok tool. -/
theorem execute_plan_success_spec_witness :
    ExecResult.success
        { results := [Value.str "w"], tools_used := [], safety_checks := 1,
          success := true } = true :=
  execute_plan_success_spec approveAll okExec (samplePlan [sampleStep "w" StepStatus.pending []])
    { results := [Value.str "w"], tools_used := [], safety_checks := 1, success := true } rfl

theorem execute_plan_loop_filter (safety_check : PlanStep → SafetyResult)
    (execute_step : PlanStep → Except String Value) (f : PlanStep → Value)
    (hexec : ∀ s, execute_step s = Except.ok (f s)) :
    ∀ (steps : List PlanStep) (results : List Value) (tools_used : List String) (n : Nat),
      ∃ tools2, execute_plan_loop safety_check execute_step steps results tools_used n =
        Except.ok { results :=
                      results ++ (steps.filter (fun s => (safety_check s).approved)).map f,
                    tools_used := tools2, safety_checks := n + steps.length,
                    success := true } := by
  intro steps
  induction steps with
  | nil =>
    intro results tools_used n
    exact ⟨tools_used, by simp [execute_plan_loop]⟩
  | cons step rest ih =>
    intro results tools_used n
    by_cases ha : (safety_check step).approved
    · have hfil : List.filter (fun s => (safety_check s).approved) (step :: rest) =
          step :: List.filter (fun s => (safety_check s).approved) rest := by
        simp [List.filter_cons, ha]
      have hd : dispatch_step execute_step step results tools_used =
          Except.ok (results ++ [f step],
            match step.tool_name with
            | Option.some t => if t == "" then tools_used else setAdd tools_used t
            | Option.none => tools_used) := by
        simp [dispatch_step, hexec step]
      obtain ⟨t2, hrec⟩ := ih (results ++ [f step])
        (match step.tool_name with
         | Option.some t => if t == "" then tools_used else setAdd tools_used t
         | Option.none => tools_used) (n + 1)
      refine ⟨t2, ?_⟩
      simp only [execute_plan_loop, if_pos ha, hd, hrec, hfil, List.map_cons,
        List.length_cons, Except.ok.injEq, ExecResult.mk.injEq]
      repeat' apply And.intro
      all_goals first
        | rfl
        | trivial
        | omega
        | simp
    · have hfil : List.filter (fun s => (safety_check s).approved) (step :: rest) =
          List.filter (fun s => (safety_check s).approved) rest := by
        simp [List.filter_cons, ha]
      obtain ⟨t2, hrec⟩ := ih results tools_used (n + 1)
      refine ⟨t2, ?_⟩
      by_cases hr : (safety_check step).requires_human_approval
      · simp only [execute_plan_loop, if_neg ha, if_pos hr, request_human_approval,
          Bool.false_eq_true, if_false, hrec, hfil, List.length_cons, Except.ok.injEq,
          ExecResult.mk.injEq]
        repeat' apply And.intro
        all_goals first
          | rfl
          | trivial
          | omega
      · simp only [execute_plan_loop, if_neg ha, if_neg hr, hrec, hfil,
          List.length_cons, Except.ok.injEq, ExecResult.mk.injEq]
        repeat' apply And.intro
        all_goals first
          | rfl
          | trivial
          | omega

/-- C3 counterexample: in a two-step plan whose first listed step s1 depends on the
second step s2, the executor dispatches s1 first, while s2 — the step get_next_step
would have selected — is still pending; so a step is dispatched before its
dependency reports completed. -/
theorem execute_plan_ignores_dependencies :
    (execute_plan approveAll okExec (samplePlan
        [sampleStep "s1" StepStatus.pending ["s2"], sampleStep "s2" StepStatus.pending []]) =
      Except.ok { results := [Value.str "s1", Value.str "s2"], tools_used := [],
                  safety_checks := 2, success := true }) ∧
    (sampleStep "s1" StepStatus.pending ["s2"]).depends_on = ["s2"] ∧
    ((samplePlan [sampleStep "s1" StepStatus.pending ["s2"],
        sampleStep "s2" StepStatus.pending []]).get_step_by_id "s2" =
      Option.some (sampleStep "s2" StepStatus.pending [])) ∧
    (sampleStep "s2" StepStatus.pending []).status = StepStatus.pending ∧
    ((samplePlan [sampleStep "s1" StepStatus.pending ["s2"],
        sampleStep "s2" StepStatus.pending []]).get_next_step =
      Option.some (sampleStep "s2" StepStatus.pending [])) :=
  ⟨rfl, rfl, rfl, rfl, rfl⟩

/-- C3 amended: the executor iterates the plan's steps in list order and never
consults get_next_step or dependency status: with a safety gate approving every step
and a step execution returning f s for step s, the aggregate results are exactly the
f-image of the steps in list order, whether or not dependencies are completed. -/
theorem execute_plan_list_order (safety_check : PlanStep → SafetyResult)
    (execute_step : PlanStep → Except String Value) (f : PlanStep → Value)
    (plan : ExecutionPlan) (happrove : ∀ s, (safety_check s).approved = true)
    (hexec : ∀ s, execute_step s = Except.ok (f s)) :
    ∃ tools2, execute_plan safety_check execute_step plan =
      Except.ok { results := plan.steps.map f, tools_used := tools2,
                  safety_checks := plan.steps.length, success := true } := by
  obtain ⟨t2, h⟩ :=
    execute_plan_loop_filter safety_check execute_step f hexec plan.steps [] [] 0
  refine ⟨t2, ?_⟩
  rw [execute_plan, h, List.filter_eq_self.2 (fun s _ => happrove s)]
  simp

/-- Witness for C3 amended at the concrete two-step plan. -/
theorem execute_plan_list_order_witness :
    ∃ tools2, execute_plan approveAll okExec (samplePlan
        [sampleStep "s1" StepStatus.pending ["s2"], sampleStep "s2" StepStatus.pending []]) =
      Except.ok { results := [Value.str "s1", Value.str "s2"], tools_used := tools2,
                  safety_checks := 2, success := true } :=
  execute_plan_list_order approveAll okExec (fun s => Value.str s.id)
    (samplePlan [sampleStep "s1" StepStatus.pending ["s2"],
      sampleStep "s2" StepStatus.pending []])
    (fun _ => rfl) (fun _ => rfl)

/-- Stub safety gate denying exactly the step with id A outright (without requesting
human approval) and approving every other step. -/
def denyAOutright : PlanStep → SafetyResult := fun step =>
  if step.id == "A" then
    { approved := false, risk_level := SafetyLevel.high, risk_categories := [],
      reason := "blocked", requires_human_approval := false,
      suggested_modifications := [] }
  else approveAll step

/-- C6 counterexample: step A is denied by the safety gate; the executor neither
marks A skipped nor blocks B (which depends on A): B is dispatched anyway and the
overall outcome still reports success = true, not a not-success outcome. -/
theorem denied_step_outcome_success :
    execute_plan denyAOutright okExec (samplePlan [sampleStep "A" StepStatus.pending [],
        sampleStep "B" StepStatus.pending ["A"]]) =
      Except.ok { results := [Value.str "B"], tools_used := [], safety_checks := 2,
                  success := true } :=
  rfl

/-- C6 amended: a step the safety gate denies (the approval path always denies) is
silently passed over — it is never marked skipped, contributes no result, and the
executor continues in list order, so the aggregate results are the f-image of the
approved steps only and success is still true. In plan.py itself, a dependency that
resolves to a step with status skipped does make dependencies_satisfied false, so
such a dependent step is never selected by get_next_step. -/
theorem safety_denial_spec (safety_check : PlanStep → SafetyResult)
    (execute_step : PlanStep → Except String Value) (f : PlanStep → Value)
    (plan : ExecutionPlan) (hexec : ∀ s, execute_step s = Except.ok (f s)) :
    (∃ tools2, execute_plan safety_check execute_step plan =
      Except.ok { results := (plan.steps.filter (fun s => (safety_check s).approved)).map f,
                  tools_used := tools2, safety_checks := plan.steps.length,
                  success := true }) ∧
    (∀ (p : ExecutionPlan) (t : PlanStep) (dep_id : String) (d : PlanStep),
        dep_id ∈ t.depends_on → p.get_step_by_id dep_id = Option.some d →
        d.status = StepStatus.skipped → p.dependencies_satisfied t = false) := by
  constructor
  · obtain ⟨t2, h⟩ :=
      execute_plan_loop_filter safety_check execute_step f hexec plan.steps [] [] 0
    refine ⟨t2, ?_⟩
    rw [execute_plan, h]
    simp
  · intro p t dep_id d hmem hget hst
    cases hall : p.dependencies_satisfied t with
    | false => rfl
    | true =>
      exfalso
      have hdc : p.dep_completed dep_id = true :=
        (List.all_eq_true.1 hall) dep_id hmem
      obtain ⟨d2, hget2, hc⟩ := (dep_completed_iff p dep_id).1 hdc
      rw [hget] at hget2
      injection hget2 with hdd
      rw [← hdd] at hc
      rw [hst] at hc
      cases hc

/-- Witness for C6 amended: with A skipped, step B depending on A has its
dependencies unsatisfied. -/
theorem safety_denial_spec_witness :
    (samplePlan [sampleStep "A" StepStatus.skipped [],
        sampleStep "B" StepStatus.pending ["A"]]).dependencies_satisfied
      (sampleStep "B" StepStatus.pending ["A"]) = false :=
  (safety_denial_spec approveAll okExec (fun s => Value.str s.id) (samplePlan [])
      (fun _ => rfl)).2
    (samplePlan [sampleStep "A" StepStatus.skipped [],
      sampleStep "B" StepStatus.pending ["A"]])
    (sampleStep "B" StepStatus.pending ["A"]) "A" (sampleStep "A" StepStatus.skipped [])
    (by simp [sampleStep]) rfl rfl

/-- Loop body of TaskPlanner._validate_dependencies from task_planner.py, with
Python list-iterator semantics: the iterator keeps a position index into the list it
iterates, list.remove deletes the first occurrence of the value (List.erase), and a
removal shifts later elements left so the element sliding into the current position
is never examined. The index grows by one per iteration and the list never grows, so
the Python loop performs at most one iteration per original element; the fuel
argument, set to the entry length plus one by the caller, therefore never runs out
and only makes the recursion structural. -/
def validate_deps_loop (step_ids : List String) : Nat → Nat → List String → List String
  | 0, _, l => l
  | fuel + 1, i, l =>
    if h : i < l.length then
      let dep_id := l.get ⟨i, h⟩
      if dep_id ∈ step_ids then validate_deps_loop step_ids fuel (i + 1) l
      else validate_deps_loop step_ids fuel (i + 1) (l.erase dep_id)
    else l

/-- TaskPlanner._validate_dependencies from task_planner.py: collect the plan's step
id set first, then for each step run the removal loop over its depends_on list. -/
def validate_dependencies (plan : ExecutionPlan) : ExecutionPlan :=
  let step_ids := plan.steps.map (fun s => s.id)
  { plan with
    steps := plan.steps.map (fun step =>
      { step with
        depends_on :=
          validate_deps_loop step_ids (step.depends_on.length + 1) 0 step.depends_on }) }

/-- C5: a step listing two consecutive dangling dependency ids keeps the second one
after the repair — removing the first id shifts the second into the current iterator
slot, which the Python for-loop then skips — so not every dangling id is removed. -/
theorem validate_dependencies_keeps_second_dangling :
    ((validate_dependencies (samplePlan
        [sampleStep "s1" StepStatus.pending ["missing-a", "missing-b"]])).steps.map
      (fun s => s.depends_on) = [["missing-b"]]) ∧
    ((samplePlan [sampleStep "s1" StepStatus.pending
        ["missing-a", "missing-b"]]).steps.map (fun s => s.id) = ["s1"]) :=
  ⟨rfl, rfl⟩

/-- One parsed step record built by TaskPlanner._fallback_parse_plan. -/
structure FallbackStep where
  description : String
  step_type : String
  parameters : List (String × Value)
  expected_output : String
  depends_on : List String
  estimated_duration : Nat

/-- Plan dictionary returned by TaskPlanner._fallback_parse_plan. -/
structure PlanData where
  plan_description : String
  estimated_duration : Nat
  steps : List FallbackStep

/-- Python str.split on the newline character, modelled on the character list. -/
def splitOnNl (cs : List Char) : List (List Char) :=
  match cs with
  | [] => [[]]
  | c :: rest =>
    match splitOnNl rest with
    | [] => [[]]
    | l :: ls => if c = '\n' then [] :: l :: ls else (c :: l) :: ls

/-- Python str.strip, modelled on the character list: drop leading and trailing
whitespace characters. -/
def trimChars (cs : List Char) : List Char :=
  ((cs.dropWhile Char.isWhitespace).reverse.dropWhile Char.isWhitespace).reverse

/-- The step dictionary literal of _fallback_parse_plan. -/
def mkFallbackStep (line : List Char) : FallbackStep :=
  { description := String.mk line, step_type := "reasoning", parameters := [],
    expected_output := "Step completion", depends_on := [], estimated_duration := 60 }

/-- Boundary test of _fallback_parse_plan: the stripped line opens a new step iff it
begins with the running counter followed by a dot, with Step and the running
counter, or with a dash or star bullet. -/
def fallback_line_starts_step (step_counter : Nat) (line : List Char) : Bool :=
  List.isPrefixOf (toString step_counter ++ ".").data line ||
  List.isPrefixOf ("Step " ++ toString step_counter).data line ||
  List.isPrefixOf ['-', ' '] line ||
  List.isPrefixOf ['*', ' '] line

/-- Line loop of TaskPlanner._fallback_parse_plan from task_planner.py: strip each
line, skip empty ones, flush the current step and open a new one on a boundary line,
and ignore every other line. -/
def fallback_loop : List (List Char) → List FallbackStep → Option FallbackStep → Nat →
    List FallbackStep
  | [], steps, current_step, _ =>
      match current_step with
      | Option.none => steps
      | Option.some cs => steps ++ [cs]
  | line :: rest, steps, current_step, step_counter =>
      let l := trimChars line
      if l = [] then fallback_loop rest steps current_step step_counter
      else if fallback_line_starts_step step_counter l then
        match current_step with
        | Option.none =>
            fallback_loop rest steps (Option.some (mkFallbackStep l)) (step_counter + 1)
        | Option.some cs =>
            fallback_loop rest (steps ++ [cs]) (Option.some (mkFallbackStep l))
              (step_counter + 1)
      else fallback_loop rest steps current_step step_counter

/-- TaskPlanner._fallback_parse_plan from task_planner.py. -/
def fallback_parse_plan (text : String) : PlanData :=
  let steps := fallback_loop (splitOnNl text.data) [] Option.none 1
  { plan_description := "Generated execution plan",
    estimated_duration := steps.length * 60,
    steps := steps }

/-- Outcome of TaskPlanner._parse_plan_from_reasoning: the early empty-plan return,
a successfully JSON-parsed value, or the fallback plan data. -/
inductive ParsedPlan where
  | empty : ParsedPlan
  | json (v : Value) : ParsedPlan
  | fallback (d : PlanData) : ParsedPlan

/-- Substring selection of _parse_plan_from_reasoning: the slice from the first open
brace to the last close brace inclusive, provided the start lies before the end. -/
def braceSlice (s : String) : Option String :=
  let cs := s.data
  match cs.findIdx? (fun c => c == '\x7b'), cs.reverse.findIdx? (fun c => c == '\x7d') with
  | Option.some js, Option.some rj =>
      let je := cs.length - 1 - rj
      if js < je + 1 then Option.some (String.mk ((cs.drop js).take (je + 1 - js)))
      else Option.none
  | _, _ => Option.none

/-- TaskPlanner._parse_plan_from_reasoning from task_planner.py, with the Python
json.loads decoder abstracted as a parameter returning none exactly when it would
raise JSONDecodeError: a falsy conclusion returns the early empty plan; otherwise
the brace-delimited slice, when present, is JSON-parsed, and on any parse failure
the function degrades to the line-oriented fallback over the whole conclusion. The
function is total: no input raises. -/
def parse_plan_from_reasoning (json_loads : String → Option Value)
    (conclusion : Option String) : ParsedPlan :=
  match conclusion with
  | Option.none => ParsedPlan.empty
  | Option.some text =>
      if text == "" then ParsedPlan.empty
      else
        match braceSlice text with
        | Option.some json_str =>
            match json_loads json_str with
            | Option.some v => ParsedPlan.json v
            | Option.none => ParsedPlan.fallback (fallback_parse_plan text)
        | Option.none => ParsedPlan.fallback (fallback_parse_plan text)

theorem fallback_loop_mem (P : FallbackStep → Prop) (allLines : List (List Char))
    (hmk : ∀ line ∈ allLines, ∀ m, trimChars line ≠ [] →
      fallback_line_starts_step m (trimChars line) = true →
      P (mkFallbackStep (trimChars line))) :
    ∀ (lines : List (List Char)), (∀ l ∈ lines, l ∈ allLines) →
      ∀ (steps : List FallbackStep) (cur : Option FallbackStep) (n : Nat)
        (st : FallbackStep),
      (∀ s ∈ steps, P s) → (∀ cs, cur = Option.some cs → P cs) →
      st ∈ fallback_loop lines steps cur n → P st := by
  intro lines
  induction lines with
  | nil =>
    intro _ steps cur n st hsteps hcur hmem
    cases cur with
    | none => exact hsteps st hmem
    | some cs =>
      simp only [fallback_loop] at hmem
      rcases List.mem_append.1 hmem with h | h
      · exact hsteps st h
      · rw [List.mem_singleton.1 h]
        exact hcur cs rfl
  | cons line rest ih =>
    intro hsub steps cur n st hsteps hcur hmem
    have hline : line ∈ allLines := hsub line (by simp)
    have hsub2 : ∀ l ∈ rest, l ∈ allLines := fun l hl => hsub l (by simp [hl])
    simp only [fallback_loop] at hmem
    by_cases he : trimChars line = []
    · rw [if_pos he] at hmem
      exact ih hsub2 steps cur n st hsteps hcur hmem
    · rw [if_neg he] at hmem
      by_cases hb : fallback_line_starts_step n (trimChars line) = true
      · rw [if_pos hb] at hmem
        cases cur with
        | none =>
          refine ih hsub2 steps (Option.some (mkFallbackStep (trimChars line))) (n + 1) st
            hsteps ?_ hmem
          intro cs hcs
          injection hcs with hcs
          rw [← hcs]
          exact hmk line hline n he hb
        | some cs0 =>
          refine ih hsub2 (steps ++ [cs0]) (Option.some (mkFallbackStep (trimChars line)))
            (n + 1) st ?_ ?_ hmem
          · intro s hs
            rcases List.mem_append.1 hs with h | h
            · exact hsteps s h
            · rw [List.mem_singleton.1 h]
              exact hcur cs0 rfl
          · intro cs hcs
            injection hcs with hcs
            rw [← hcs]
            exact hmk line hline n he hb
      · rw [if_neg hb] at hmem
        exact ih hsub2 steps cur n st hsteps hcur hmem

/-- C7 counterexample: the fallback parser does not accumulate continuation lines —
for a text with a first numbered line and a continuation line, the single parsed
step's description is exactly the first line — and a line starting with a numbered
marker other than the running counter (here 2. while the counter is 1) opens no step
at all, so that parse yields zero steps. -/
theorem fallback_parse_counterexamples :
    ((fallback_parse_plan "1. first step\nmore detail").steps.map
        (fun s => s.description) = ["1. first step"]) ∧
    ((fallback_parse_plan "2. some step").steps.map (fun s => s.description) = []) := by
  constructor
  · rfl
  · rfl

/-- C7 amended: plan parsing never raises — a failed JSON parse always degrades to
the line-oriented fallback over the whole conclusion, and the fallback always
succeeds, possibly with zero steps. The fallback opens a step exactly on a stripped
line beginning with the next sequential number marker, Step followed by the running
counter, a dash bullet, or a star bullet; the boundary line itself becomes the
description (other lines are ignored, not accumulated) and every produced step is
reasoning-typed with a 60-second estimate and no dependencies. -/
theorem parse_plan_fallback_spec (json_loads : String → Option Value) (text : String)
    (hjson : braceSlice text = Option.none ∨
      ∃ js, braceSlice text = Option.some js ∧ json_loads js = Option.none)
    (hne : (text == "") = false) :
    parse_plan_from_reasoning json_loads (Option.some text) =
      ParsedPlan.fallback (fallback_parse_plan text) ∧
    (∀ st ∈ (fallback_parse_plan text).steps,
      st.step_type = "reasoning" ∧ st.estimated_duration = 60 ∧ st.depends_on = [] ∧
        st.parameters = [] ∧ st.expected_output = "Step completion" ∧
        ∃ line ∈ splitOnNl text.data, ∃ m, trimChars line ≠ [] ∧
          fallback_line_starts_step m (trimChars line) = true ∧
          st.description = String.mk (trimChars line)) ∧
    (fallback_parse_plan "no step markers at all").steps.map (fun s => s.description) = [] := by
  refine ⟨?_, ?_, rfl⟩
  · rcases hjson with h | ⟨js, hjs, hload⟩
    · simp only [parse_plan_from_reasoning, hne, Bool.false_eq_true, if_false, h]
    · simp only [parse_plan_from_reasoning, hne, Bool.false_eq_true, if_false, hjs, hload]
  · intro st hmem
    refine fallback_loop_mem
      (fun s => s.step_type = "reasoning" ∧ s.estimated_duration = 60 ∧ s.depends_on = [] ∧
        s.parameters = [] ∧ s.expected_output = "Step completion" ∧
        ∃ line ∈ splitOnNl text.data, ∃ m, trimChars line ≠ [] ∧
          fallback_line_starts_step m (trimChars line) = true ∧
          s.description = String.mk (trimChars line))
      (splitOnNl text.data)
      (fun line hline m hne2 hb =>
        ⟨rfl, rfl, rfl, rfl, rfl, line, hline, m, hne2, hb, rfl⟩)
      (splitOnNl text.data) (fun _ h => h) [] Option.none 1 st (by simp) (by simp) hmem

/-- Witness for C7 amended: a conclusion with no brace at all and an always-failing
decoder falls back to the heuristic parse of the conclusion. -/
theorem parse_plan_fallback_spec_witness :
    parse_plan_from_reasoning (fun _ => Option.none) (Option.some "- a") =
      ParsedPlan.fallback (fallback_parse_plan "- a") :=
  (parse_plan_fallback_spec (fun _ => Option.none) "- a" (Or.inl rfl) rfl).1

/-- All identifiers the cycle traversal can encounter: the plan's step ids together
with every id mentioned in a depends_on list. -/
def idUniverse (plan : ExecutionPlan) : Finset String :=
  (plan.steps.map (fun s => s.id)).toFinset ∪
    (plan.steps.flatMap (fun s => s.depends_on)).toFinset

/-- Number of universe identifiers not yet visited. -/
def remainingCount (plan : ExecutionPlan) (visited : List String) : Nat :=
  (idUniverse plan \ visited.toFinset).card

/-- The for-loop over one step's dependencies inside the has_cycle helper of
TaskPlanner._check_circular_dependencies: recursion into an unvisited dependency is
the visit argument; a visited dependency still on the current stack reports a cycle;
a visited dependency off the stack is passed over. The visited set threads through,
the stack is path-local. -/
def dfs_scan (visit : String → List String → List String → Option (Bool × List String)) :
    List String → List String → List String → Option (Bool × List String)
  | [], visited, _ => Option.some (false, visited)
  | dep_id :: rest, visited, rec_stack =>
    if dep_id ∈ visited then
      if dep_id ∈ rec_stack then Option.some (true, visited)
      else dfs_scan visit rest visited rec_stack
    else
      match visit dep_id visited rec_stack with
      | Option.none => Option.none
      | Option.some (true, visited2) => Option.some (true, visited2)
      | Option.some (false, visited2) => dfs_scan visit rest visited2 rec_stack

/-- The recursive has_cycle helper of _check_circular_dependencies from
task_planner.py: mark the node visited and on the stack, scan its dependencies when
it resolves to a step, and leave the stack unchanged for the caller on return. Fuel
models the Python call stack; dfs_visit_total below shows the fuel chosen at the
top level is never exhausted. -/
def dfs_visit (plan : ExecutionPlan) : Nat → String → List String → List String →
    Option (Bool × List String)
  | 0, _, _, _ => Option.none
  | fuel + 1, step_id, visited, rec_stack =>
    match plan.get_step_by_id step_id with
    | Option.none => Option.some (false, step_id :: visited)
    | Option.some step =>
        dfs_scan (dfs_visit plan fuel) step.depends_on (step_id :: visited)
          (step_id :: rec_stack)

/-- Fuel that can never run out: one more than the number of identifiers. -/
def cycleFuel (plan : ExecutionPlan) : Nat := (idUniverse plan).card + 1

/-- Root loop of TaskPlanner._check_circular_dependencies: run the DFS from every
step not yet visited, threading the visited set; a detected cycle raises a
ValueError naming the plan id. -/
def check_roots (plan : ExecutionPlan) : List PlanStep → List String →
    Option (Except String Unit)
  | [], _ => Option.some (Except.ok ())
  | step :: rest, visited =>
    if step.id ∈ visited then check_roots plan rest visited
    else
      match dfs_visit plan (cycleFuel plan) step.id visited [] with
      | Option.none => Option.none
      | Option.some (true, _) =>
          Option.some (Except.error ("Circular dependency detected in plan " ++ plan.id))
      | Option.some (false, visited2) => check_roots plan rest visited2

/-- TaskPlanner._check_circular_dependencies from task_planner.py. -/
def check_circular_dependencies (plan : ExecutionPlan) : Option (Except String Unit) :=
  check_roots plan plan.steps []

/-- Dependency edge of the plan graph: the source id resolves to a step whose
depends_on mentions the target id. -/
def Edge (plan : ExecutionPlan) (a b : String) : Prop :=
  ∃ s, plan.get_step_by_id a = Option.some s ∧ b ∈ s.depends_on

/-- Nonempty path in the dependency graph. -/
inductive EPath (plan : ExecutionPlan) : String → String → Prop where
  | single {a b : String} : Edge plan a b → EPath plan a b
  | cons {a b c : String} : Edge plan a b → EPath plan b c → EPath plan a c

/-- The dependency graph contains a cycle. -/
def HasCycleProp (plan : ExecutionPlan) : Prop := ∃ a, EPath plan a a

theorem get_step_mem {plan : ExecutionPlan} {a : String} {s : PlanStep}
    (h : plan.get_step_by_id a = Option.some s) : s ∈ plan.steps ∧ s.id = a := by
  refine ⟨List.mem_of_find?_eq_some h, ?_⟩
  have := List.find?_some h
  exact beq_iff_eq.1 this

theorem stepid_mem_universe {plan : ExecutionPlan} {s : PlanStep} (h : s ∈ plan.steps) :
    s.id ∈ idUniverse plan := by
  simp only [idUniverse, Finset.mem_union, List.mem_toFinset, List.mem_map]
  exact Or.inl ⟨s, h, rfl⟩

theorem dep_mem_universe {plan : ExecutionPlan} {s : PlanStep} {d : String}
    (hs : s ∈ plan.steps) (hd : d ∈ s.depends_on) : d ∈ idUniverse plan := by
  simp only [idUniverse, Finset.mem_union, List.mem_toFinset, List.mem_flatMap]
  exact Or.inr ⟨s, hs, hd⟩

theorem remainingCount_cons_lt {plan : ExecutionPlan} {a : String} {V : List String}
    (hU : a ∈ idUniverse plan) (hV : a ∉ V) :
    remainingCount plan (a :: V) < remainingCount plan V := by
  unfold remainingCount
  have h1 : a ∈ idUniverse plan \ V.toFinset := by
    simp [Finset.mem_sdiff, hU, List.mem_toFinset, hV]
  have h2 : idUniverse plan \ (a :: V).toFinset =
      (idUniverse plan \ V.toFinset).erase a := by
    ext x
    simp only [Finset.mem_sdiff, Finset.mem_erase, List.toFinset_cons,
      Finset.mem_insert, List.mem_toFinset]
    tauto
  rw [h2]
  exact Finset.card_erase_lt_of_mem h1

theorem remainingCount_anti {plan : ExecutionPlan} {V V2 : List String}
    (h : ∀ x ∈ V, x ∈ V2) : remainingCount plan V2 ≤ remainingCount plan V := by
  apply Finset.card_le_card
  intro x hx
  simp only [Finset.mem_sdiff, List.mem_toFinset] at hx ⊢
  exact ⟨hx.1, fun hxv => hx.2 (h x hxv)⟩

theorem dfs_scan_mono
    (visit : String → List String → List String → Option (Bool × List String))
    (hv : ∀ id V R b V2, visit id V R = Option.some (b, V2) → ∀ x ∈ V, x ∈ V2) :
    ∀ deps V R b V2, dfs_scan visit deps V R = Option.some (b, V2) →
      ∀ x ∈ V, x ∈ V2 := by
  intro deps
  induction deps with
  | nil =>
    intro V R b V2 h
    injection h with h
    injection h with _ h2
    rw [← h2]
    exact fun x hx => hx
  | cons d rest ih =>
    intro V R b V2 h
    simp only [dfs_scan] at h
    by_cases hdV : d ∈ V
    · rw [if_pos hdV] at h
      by_cases hdR : d ∈ R
      · rw [if_pos hdR] at h
        injection h with h
        injection h with _ h2
        rw [← h2]
        exact fun x hx => hx
      · rw [if_neg hdR] at h
        exact ih V R b V2 h
    · rw [if_neg hdV] at h
      cases hvis : visit d V R with
      | none => rw [hvis] at h; cases h
      | some p =>
        rw [hvis] at h
        obtain ⟨b1, V1⟩ := p
        cases b1 with
        | true =>
          injection h with h
          injection h with _ h2
          rw [← h2]
          exact hv d V R true V1 hvis
        | false =>
          intro x hx
          exact ih V1 R b V2 h x (hv d V R false V1 hvis x hx)

theorem dfs_visit_mono (plan : ExecutionPlan) :
    ∀ fuel id V R b V2, dfs_visit plan fuel id V R = Option.some (b, V2) →
      ∀ x ∈ V, x ∈ V2 := by
  intro fuel
  induction fuel with
  | zero => intro id V R b V2 h; cases h
  | succ fuel ih =>
    intro id V R b V2 h
    simp only [dfs_visit] at h
    cases hget : plan.get_step_by_id id with
    | none =>
      rw [hget] at h
      injection h with h
      injection h with _ h2
      rw [← h2]
      exact fun x hx => List.mem_cons_of_mem _ hx
    | some step =>
      rw [hget] at h
      intro x hx
      exact dfs_scan_mono (dfs_visit plan fuel) (ih) step.depends_on (id :: V) (id :: R)
        b V2 h x (List.mem_cons_of_mem _ hx)

theorem dfs_visit_total (plan : ExecutionPlan) :
    ∀ fuel id V R, id ∈ idUniverse plan → id ∉ V → remainingCount plan V ≤ fuel →
      (dfs_visit plan fuel id V R).isSome = true := by
  intro fuel
  induction fuel with
  | zero =>
    intro id V R hU hV hrem
    exfalso
    have h1 : id ∈ idUniverse plan \ V.toFinset := by
      simp [Finset.mem_sdiff, hU, List.mem_toFinset, hV]
    have h2 : 0 < remainingCount plan V := Finset.card_pos.2 ⟨id, h1⟩
    omega
  | succ fuel ih =>
    intro id V R hU hV hrem
    simp only [dfs_visit]
    cases hget : plan.get_step_by_id id with
    | none => rfl
    | some step =>
      obtain ⟨hsmem, hsid⟩ := get_step_mem hget
      have hrem2 : remainingCount plan (id :: V) ≤ fuel := by
        have := remainingCount_cons_lt hU hV
        omega
      have hdepsU : ∀ d ∈ step.depends_on, d ∈ idUniverse plan :=
        fun d hd => dep_mem_universe hsmem hd
      have scan_total : ∀ deps V2 R2, (∀ d ∈ deps, d ∈ idUniverse plan) →
          remainingCount plan V2 ≤ fuel →
          (dfs_scan (dfs_visit plan fuel) deps V2 R2).isSome = true := by
        intro deps
        induction deps with
        | nil => intro V2 R2 _ _; rfl
        | cons d rest ihd =>
          intro V2 R2 hdU hrem3
          simp only [dfs_scan]
          by_cases hdV : d ∈ V2
          · rw [if_pos hdV]
            by_cases hdR : d ∈ R2
            · rw [if_pos hdR]; rfl
            · rw [if_neg hdR]
              exact ihd V2 R2 (fun x hx => hdU x (by simp [hx])) hrem3
          · rw [if_neg hdV]
            have hv := ih d V2 R2 (hdU d (by simp)) hdV hrem3
            cases hvis : dfs_visit plan fuel d V2 R2 with
            | none => rw [hvis] at hv; cases hv
            | some p =>
              obtain ⟨b1, V1⟩ := p
              cases b1 with
              | true => rfl
              | false =>
                have hmono := dfs_visit_mono plan fuel d V2 R2 false V1 hvis
                exact ihd V1 R2 (fun x hx => hdU x (by simp [hx]))
                  (le_trans (remainingCount_anti hmono) hrem3)
      exact scan_total step.depends_on (id :: V) (id :: R) hdepsU hrem2

theorem check_roots_total (plan : ExecutionPlan) :
    ∀ roots, (∀ st ∈ roots, st ∈ plan.steps) → ∀ V,
      (check_roots plan roots V).isSome = true := by
  intro roots
  induction roots with
  | nil => intro _ V; rfl
  | cons step rest ih =>
    intro hsub V
    have hstep : step ∈ plan.steps := hsub step (by simp)
    have hsub2 : ∀ st ∈ rest, st ∈ plan.steps := fun st h => hsub st (by simp [h])
    simp only [check_roots]
    by_cases hV : step.id ∈ V
    · rw [if_pos hV]
      exact ih hsub2 V
    · rw [if_neg hV]
      have hrem : remainingCount plan V ≤ cycleFuel plan := by
        unfold remainingCount cycleFuel
        have h : (idUniverse plan \ V.toFinset).card ≤ (idUniverse plan).card :=
          Finset.card_le_card Finset.sdiff_subset
        omega
      have ht := dfs_visit_total plan (cycleFuel plan) step.id V []
        (stepid_mem_universe hstep) hV hrem
      cases hvis : dfs_visit plan (cycleFuel plan) step.id V [] with
      | none => rw [hvis] at ht; cases ht
      | some p =>
        obtain ⟨b, V2⟩ := p
        cases b with
        | true => rfl
        | false => exact ih hsub2 V2

/-- Certificate list in finishing order: every dependency edge of a listed node
lands in the part of the list after it. -/
inductive TopoList (plan : ExecutionPlan) : List String → Prop where
  | nil : TopoList plan []
  | cons {a : String} {L : List String} : TopoList plan L →
      (∀ b, Edge plan a b → b ∈ L) → TopoList plan (a :: L)

theorem epath_snoc {plan : ExecutionPlan} {x y z : String} (p : EPath plan x y)
    (e : Edge plan y z) : EPath plan x z := by
  induction p with
  | single e0 => exact EPath.cons e0 (EPath.single e)
  | cons e0 _ ih => exact EPath.cons e0 (ih e)

theorem topo_acc {plan : ExecutionPlan} {L : List String} (hL : TopoList plan L) :
    ∀ a ∈ L, Acc (fun u v => Edge plan v u) a := by
  induction hL with
  | nil => intro a ha; cases ha
  | cons hT hE ih =>
    intro x hx
    rcases List.mem_cons.1 hx with rfl | hx2
    · exact Acc.intro x (fun y hy => ih y (hE y hy))
    · exact ih x hx2

theorem acc_no_cycle {plan : ExecutionPlan} {a : String}
    (h : Acc (fun u v => Edge plan v u) a) : EPath plan a a → False := by
  induction h with
  | intro x _ ih =>
    intro hp
    cases hp with
    | single e => exact ih x e (EPath.single e)
    | cons e p => exact ih _ e (epath_snoc p e)

/-- Invariant of the DFS state: the visited list is exactly the disjoint union of
the finished nodes (the certificate list) and the current recursion stack. -/
def DfsState (plan : ExecutionPlan) (V R B : List String) : Prop :=
  (∀ x, x ∈ V ↔ (x ∈ B ∨ x ∈ R)) ∧ (∀ x ∈ B, x ∉ R) ∧ TopoList plan B

theorem dfs_scan_state (plan : ExecutionPlan)
    (visit : String → List String → List String → Option (Bool × List String))
    (hvisit : ∀ id V R V2, visit id V R = Option.some (false, V2) → id ∉ V →
      ∀ B, DfsState plan V R B →
        ∃ B2, DfsState plan V2 R B2 ∧ (∀ x ∈ B, x ∈ B2) ∧ id ∈ B2) :
    ∀ deps V R V2, dfs_scan visit deps V R = Option.some (false, V2) →
      ∀ B, DfsState plan V R B →
        ∃ B2, DfsState plan V2 R B2 ∧ (∀ x ∈ B, x ∈ B2) ∧ ∀ d ∈ deps, d ∈ B2 := by
  intro deps
  induction deps with
  | nil =>
    intro V R V2 h B hB
    injection h with h
    injection h with _ h2
    rw [← h2]
    exact ⟨B, hB, fun x hx => hx, by simp⟩
  | cons d rest ih =>
    intro V R V2 h B hB
    simp only [dfs_scan] at h
    by_cases hdV : d ∈ V
    · rw [if_pos hdV] at h
      by_cases hdR : d ∈ R
      · rw [if_pos hdR] at h
        injection h with h
        injection h with h1 _
        cases h1
      · rw [if_neg hdR] at h
        obtain ⟨B2, hS, hm, hrest⟩ := ih V R V2 h B hB
        refine ⟨B2, hS, hm, ?_⟩
        intro x hx
        rcases List.mem_cons.1 hx with rfl | hx2
        · rcases (hB.1 x).1 hdV with hdB | hdR2
          · exact hm x hdB
          · exact absurd hdR2 hdR
        · exact hrest x hx2
    · rw [if_neg hdV] at h
      cases hvis : visit d V R with
      | none => rw [hvis] at h; cases h
      | some p =>
        rw [hvis] at h
        obtain ⟨b1, V1⟩ := p
        cases b1 with
        | true =>
          injection h with h
          injection h with h1 _
          cases h1
        | false =>
          obtain ⟨B1, hS1, hm1, hdB1⟩ := hvisit d V R V1 hvis hdV B hB
          obtain ⟨B2, hS2, hm2, hrest⟩ := ih V1 R V2 h B1 hS1
          refine ⟨B2, hS2, fun x hx => hm2 x (hm1 x hx), ?_⟩
          intro x hx
          rcases List.mem_cons.1 hx with rfl | hx2
          · exact hm2 x hdB1
          · exact hrest x hx2

theorem dfs_visit_state (plan : ExecutionPlan) :
    ∀ fuel id V R V2, dfs_visit plan fuel id V R = Option.some (false, V2) → id ∉ V →
      ∀ B, DfsState plan V R B →
        ∃ B2, DfsState plan V2 R B2 ∧ (∀ x ∈ B, x ∈ B2) ∧ id ∈ B2 := by
  intro fuel
  induction fuel with
  | zero => intro id V R V2 h; cases h
  | succ fuel ih =>
    intro id V R V2 h hid B hB
    simp only [dfs_visit] at h
    have hidR : id ∉ R := fun hR => hid ((hB.1 id).2 (Or.inr hR))
    have hidB : id ∉ B := fun hBm => hid ((hB.1 id).2 (Or.inl hBm))
    cases hget : plan.get_step_by_id id with
    | none =>
      rw [hget] at h
      injection h with h
      injection h with _ h2
      refine ⟨id :: B, ?_, fun x hx => List.mem_cons_of_mem _ hx, by simp⟩
      rw [← h2]
      refine ⟨?_, ?_, ?_⟩
      · intro x
        simp only [List.mem_cons]
        have := hB.1 x
        tauto
      · intro x hx
        rcases List.mem_cons.1 hx with rfl | hx2
        · exact hidR
        · exact hB.2.1 x hx2
      · refine TopoList.cons hB.2.2 ?_
        intro b hEdge
        exfalso
        rcases hEdge with ⟨s, hgs, _⟩
        rw [hget] at hgs
        cases hgs
    | some step =>
      rw [hget] at h
      have hB1 : DfsState plan (id :: V) (id :: R) B := by
        refine ⟨?_, ?_, hB.2.2⟩
        · intro x
          simp only [List.mem_cons]
          have := hB.1 x
          tauto
        · intro x hx
          simp only [List.mem_cons]
          push_neg
          exact ⟨fun hxx => hidB (hxx ▸ hx), hB.2.1 x hx⟩
      obtain ⟨B2, hS2, hm2, hdeps⟩ := dfs_scan_state plan (dfs_visit plan fuel)
        ih step.depends_on (id :: V) (id :: R) V2 h B hB1
      refine ⟨id :: B2, ?_, fun x hx => List.mem_cons_of_mem _ (hm2 x hx), by simp⟩
      refine ⟨?_, ?_, ?_⟩
      · intro x
        have h1 := hS2.1 x
        simp only [List.mem_cons] at h1 ⊢
        tauto
      · intro x hx
        rcases List.mem_cons.1 hx with rfl | hx2
        · exact hidR
        · intro hxR
          exact hS2.2.1 x hx2 (List.mem_cons_of_mem _ hxR)
      · refine TopoList.cons hS2.2.2 ?_
        intro b hEdge
        rcases hEdge with ⟨s, hgs, hbd⟩
        rw [hget] at hgs
        injection hgs with hgs
        rw [← hgs] at hbd
        exact hdeps b hbd

theorem check_roots_ok (plan : ExecutionPlan) :
    ∀ roots V B, check_roots plan roots V = Option.some (Except.ok ()) →
      DfsState plan V [] B →
      ∃ B2, (∀ x ∈ B, x ∈ B2) ∧ (∀ st ∈ roots, st.id ∈ B2) ∧ TopoList plan B2 := by
  intro roots
  induction roots with
  | nil =>
    intro V B _ hB
    exact ⟨B, fun x hx => hx, by simp, hB.2.2⟩
  | cons step rest ih =>
    intro V B h hB
    simp only [check_roots] at h
    by_cases hV : step.id ∈ V
    · rw [if_pos hV] at h
      obtain ⟨B2, hm, hall, hT⟩ := ih V B h hB
      refine ⟨B2, hm, ?_, hT⟩
      intro st hst
      rcases List.mem_cons.1 hst with rfl | hst2
      · rcases (hB.1 st.id).1 hV with hBm | hRm
        · exact hm _ hBm
        · cases hRm
      · exact hall st hst2
    · rw [if_neg hV] at h
      cases hvis : dfs_visit plan (cycleFuel plan) step.id V [] with
      | none => rw [hvis] at h; cases h
      | some p =>
        rw [hvis] at h
        obtain ⟨b, V2⟩ := p
        cases b with
        | true =>
          injection h with h
          cases h
        | false =>
          obtain ⟨B1, hS1, hm1, hid1⟩ := dfs_visit_state plan (cycleFuel plan)
            step.id V [] V2 hvis hV B hB
          obtain ⟨B2, hm2, hall, hT⟩ := ih V2 B1 h hS1
          refine ⟨B2, fun x hx => hm2 x (hm1 x hx), ?_, hT⟩
          intro st hst
          rcases List.mem_cons.1 hst with rfl | hst2
          · exact hm2 _ hid1
          · exact hall st hst2

theorem check_roots_cases (plan : ExecutionPlan) :
    ∀ roots V r, check_roots plan roots V = Option.some r →
      r = Except.ok () ∨
        r = Except.error ("Circular dependency detected in plan " ++ plan.id) := by
  intro roots
  induction roots with
  | nil =>
    intro V r h
    injection h with h
    exact Or.inl h.symm
  | cons step rest ih =>
    intro V r h
    simp only [check_roots] at h
    by_cases hV : step.id ∈ V
    · rw [if_pos hV] at h
      exact ih V r h
    · rw [if_neg hV] at h
      cases hvis : dfs_visit plan (cycleFuel plan) step.id V [] with
      | none => rw [hvis] at h; cases h
      | some p =>
        rw [hvis] at h
        obtain ⟨b, V2⟩ := p
        cases b with
        | true =>
          injection h with h
          exact Or.inr h.symm
        | false => exact ih V2 r h

/-- C4: the Plan Validator's cycle check always terminates — the fuel chosen for
the depth-first traversal, one more than the number of identifiers, is never
exhausted on any finite dependency graph, disconnected components included — and
every plan whose dependency graph contains a cycle is rejected with a ValueError
whose message names the plan id, before the plan reaches the executor. -/
theorem check_circular_spec (plan : ExecutionPlan) :
    (∃ r, check_circular_dependencies plan = Option.some r) ∧
    (HasCycleProp plan →
      check_circular_dependencies plan =
        Option.some (Except.error ("Circular dependency detected in plan " ++ plan.id))) := by
  have htot := check_roots_total plan plan.steps (fun _ h => h) []
  obtain ⟨r, hr⟩ := Option.isSome_iff_exists.1 htot
  refine ⟨⟨r, hr⟩, ?_⟩
  intro hcyc
  rcases check_roots_cases plan plan.steps [] r hr with hok | herr
  · exfalso
    obtain ⟨a, hp⟩ := hcyc
    have h0 : DfsState plan [] [] [] := ⟨by simp, by simp, TopoList.nil⟩
    rw [hok] at hr
    obtain ⟨B2, _, hall, hT⟩ := check_roots_ok plan plan.steps [] [] hr h0
    have hex : ∃ s ∈ plan.steps, s.id = a := by
      cases hp with
      | single e =>
        obtain ⟨s, hgs, _⟩ := e
        exact ⟨s, (get_step_mem hgs).1, (get_step_mem hgs).2⟩
      | cons e _ =>
        obtain ⟨s, hgs, _⟩ := e
        exact ⟨s, (get_step_mem hgs).1, (get_step_mem hgs).2⟩
    obtain ⟨s, hs, hsid⟩ := hex
    have haB : a ∈ B2 := hsid ▸ hall s hs
    exact acc_no_cycle (topo_acc hT a haB) hp
  · rw [← herr]
    exact hr

/-- Two-step plan whose steps depend on each other. -/
def cyclicPlan : ExecutionPlan :=
  samplePlan [sampleStep "x" StepStatus.pending ["y"],
    sampleStep "y" StepStatus.pending ["x"]]

/-- Witness for C4: the two-step plan where x depends on y and y depends on x is
rejected with the error naming the plan id. -/
theorem check_circular_spec_witness :
    check_circular_dependencies cyclicPlan =
      Option.some (Except.error ("Circular dependency detected in plan " ++
        cyclicPlan.id)) :=
  (check_circular_spec cyclicPlan).2
    ⟨"x",
      EPath.cons
        (show Edge cyclicPlan "x" "y" from
          ⟨sampleStep "x" StepStatus.pending ["y"], rfl, by simp [sampleStep]⟩)
        (EPath.single
          (show Edge cyclicPlan "y" "x" from
            ⟨sampleStep "y" StepStatus.pending ["x"], rfl, by simp [sampleStep]⟩))⟩

/-- Task statuses, from src/agi_agent/models/task.py (class TaskStatus). -/
inductive TaskStatus where
  | pending
  | in_progress
  | completed
  | failed
  | cancelled
deriving DecidableEq

/-- Task priorities, from task.py (class TaskPriority). -/
inductive TaskPriority where
  | low
  | medium
  | high
  | urgent
deriving DecidableEq

/-- The .value string of a TaskStatus enum member. -/
def TaskStatus.value : TaskStatus → String
  | TaskStatus.pending => "pending"
  | TaskStatus.in_progress => "in_progress"
  | TaskStatus.completed => "completed"
  | TaskStatus.failed => "failed"
  | TaskStatus.cancelled => "cancelled"

/-- The TaskStatus(str) enum constructor: none models the ValueError on an unknown
value. -/
def TaskStatus.ofValue (s : String) : Option TaskStatus :=
  if s = "pending" then Option.some TaskStatus.pending
  else if s = "in_progress" then Option.some TaskStatus.in_progress
  else if s = "completed" then Option.some TaskStatus.completed
  else if s = "failed" then Option.some TaskStatus.failed
  else if s = "cancelled" then Option.some TaskStatus.cancelled
  else Option.none

/-- The .value string of a TaskPriority enum member. -/
def TaskPriority.value : TaskPriority → String
  | TaskPriority.low => "low"
  | TaskPriority.medium => "medium"
  | TaskPriority.high => "high"
  | TaskPriority.urgent => "urgent"

/-- The TaskPriority(str) enum constructor. -/
def TaskPriority.ofValue (s : String) : Option TaskPriority :=
  if s = "low" then Option.some TaskPriority.low
  else if s = "medium" then Option.some TaskPriority.medium
  else if s = "high" then Option.some TaskPriority.high
  else if s = "urgent" then Option.some TaskPriority.urgent
  else Option.none

theorem taskStatus_round (st : TaskStatus) : TaskStatus.ofValue st.value = Option.some st := by
  cases st <;> rfl

theorem taskPriority_round (pr : TaskPriority) :
    TaskPriority.ofValue pr.value = Option.some pr := by
  cases pr <;> rfl

/-- Fixed-width decimal rendering, most significant digit first. -/
def padNum : Nat → Nat → List Char
  | 0, _ => []
  | w + 1, n => padNum w (n / 10) ++ [Char.ofNat (48 + n % 10)]

/-- Decimal digit reading by left fold. -/
def parseDigits (cs : List Char) : Nat :=
  cs.foldl (fun acc c => acc * 10 + (c.toNat - 48)) 0

theorem padNum_length : ∀ (w n : Nat), (padNum w n).length = w := by
  intro w
  induction w with
  | zero => intro n; rfl
  | succ w ih => intro n; simp [padNum, ih]

theorem digit_toNat {d : Nat} (h : d < 10) : (Char.ofNat (48 + d)).toNat = 48 + d := by
  interval_cases d <;> decide

theorem parseDigits_append (a : List Char) (c : Char) :
    parseDigits (a ++ [c]) = parseDigits a * 10 + (c.toNat - 48) := by
  simp [parseDigits, List.foldl_append]

theorem parse_padNum : ∀ (w n : Nat), parseDigits (padNum w n) = n % 10 ^ w := by
  intro w
  induction w with
  | zero => intro n; simp [padNum, parseDigits, Nat.mod_one]
  | succ w ih =>
    intro n
    simp only [padNum]
    rw [parseDigits_append, ih, digit_toNat (Nat.mod_lt n (by norm_num))]
    have h48 : 48 + n % 10 - 48 = n % 10 := by omega
    rw [h48]
    have hpow : (10 : Nat) ^ (w + 1) = 10 * 10 ^ w := by ring
    rw [hpow, Nat.mod_mul]
    ring

/-- Python datetime.isoformat for a naive datetime: fixed-width fields, the
microsecond fraction present exactly when nonzero. -/
def DateTime.isoformat (d : DateTime) : String :=
  String.mk (padNum 4 d.year ++ '-' :: padNum 2 d.month ++ '-' :: padNum 2 d.day ++
    'T' :: padNum 2 d.hour ++ ':' :: padNum 2 d.minute ++ ':' :: padNum 2 d.second ++
    (if d.microsecond = 0 then [] else '.' :: padNum 6 d.microsecond))

/-- Python datetime.fromisoformat, modelled on the strings isoformat emits:
positional digit fields with an optional six-digit fraction; none models the
ValueError raised on any other shape. -/
def DateTime.fromisoformat (s : String) : Option DateTime :=
  match s.data with
  | y1 :: y2 :: y3 :: y4 :: _ :: m1 :: m2 :: _ :: d1 :: d2 :: _ :: h1 :: h2 :: _ ::
      i1 :: i2 :: _ :: s1 :: s2 :: rest =>
      match rest with
      | [] =>
          Option.some ⟨parseDigits [y1, y2, y3, y4], parseDigits [m1, m2],
            parseDigits [d1, d2], parseDigits [h1, h2], parseDigits [i1, i2],
            parseDigits [s1, s2], 0⟩
      | _ :: u1 :: u2 :: u3 :: u4 :: u5 :: u6 :: [] =>
          Option.some ⟨parseDigits [y1, y2, y3, y4], parseDigits [m1, m2],
            parseDigits [d1, d2], parseDigits [h1, h2], parseDigits [i1, i2],
            parseDigits [s1, s2], parseDigits [u1, u2, u3, u4, u5, u6]⟩
      | _ => Option.none
  | _ => Option.none

/-- Field bounds under which the fixed-width rendering is lossless; the Python
datetime type guarantees far tighter bounds. -/
def DateTime.wf (d : DateTime) : Prop :=
  d.year < 10000 ∧ d.month < 100 ∧ d.day < 100 ∧ d.hour < 100 ∧ d.minute < 100 ∧
    d.second < 100 ∧ d.microsecond < 1000000

theorem parse_padNum_eq {w n : Nat} (h : n < 10 ^ w) : parseDigits (padNum w n) = n := by
  rw [parse_padNum]
  exact Nat.mod_eq_of_lt h

theorem iso_round (d : DateTime) (h : DateTime.wf d) :
    DateTime.fromisoformat (DateTime.isoformat d) = Option.some d := by
  obtain ⟨y, mo, da, ho, mi, se, mc⟩ := d
  obtain ⟨h1, h2, h3, h4, h5, h6, h7⟩ := h
  dsimp only at h1 h2 h3 h4 h5 h6 h7
  have e4 : parseDigits (padNum 4 y) = y := parse_padNum_eq (by norm_num; omega)
  have e2a : parseDigits (padNum 2 mo) = mo := parse_padNum_eq (by norm_num; omega)
  have e2b : parseDigits (padNum 2 da) = da := parse_padNum_eq (by norm_num; omega)
  have e2c : parseDigits (padNum 2 ho) = ho := parse_padNum_eq (by norm_num; omega)
  have e2d : parseDigits (padNum 2 mi) = mi := parse_padNum_eq (by norm_num; omega)
  have e2e : parseDigits (padNum 2 se) = se := parse_padNum_eq (by norm_num; omega)
  by_cases hmc : mc = 0
  · subst hmc
    have hred : DateTime.fromisoformat (DateTime.isoformat ⟨y, mo, da, ho, mi, se, 0⟩) =
        Option.some ⟨parseDigits (padNum 4 y), parseDigits (padNum 2 mo),
          parseDigits (padNum 2 da), parseDigits (padNum 2 ho),
          parseDigits (padNum 2 mi), parseDigits (padNum 2 se), 0⟩ := rfl
    rw [hred, e4, e2a, e2b, e2c, e2d, e2e]
  · have e6 : parseDigits (padNum 6 mc) = mc := parse_padNum_eq (by norm_num; omega)
    have hiso : DateTime.isoformat ⟨y, mo, da, ho, mi, se, mc⟩ =
        String.mk (padNum 4 y ++ '-' :: padNum 2 mo ++ '-' :: padNum 2 da ++
          'T' :: padNum 2 ho ++ ':' :: padNum 2 mi ++ ':' :: padNum 2 se ++
          ('.' :: padNum 6 mc)) := by
      simp [DateTime.isoformat, hmc]
    rw [hiso]
    have hred : DateTime.fromisoformat (String.mk (padNum 4 y ++ '-' :: padNum 2 mo ++
        '-' :: padNum 2 da ++ 'T' :: padNum 2 ho ++ ':' :: padNum 2 mi ++
        ':' :: padNum 2 se ++ ('.' :: padNum 6 mc))) =
        Option.some ⟨parseDigits (padNum 4 y), parseDigits (padNum 2 mo),
          parseDigits (padNum 2 da), parseDigits (padNum 2 ho),
          parseDigits (padNum 2 mi), parseDigits (padNum 2 se),
          parseDigits (padNum 6 mc)⟩ := rfl
    rw [hred, e4, e2a, e2b, e2c, e2d, e2e, e6]

/-- Python truthiness of a string: False exactly for the empty string. -/
def pyTruthyStr (s : String) : Bool := !(s == "")

theorem isoformat_ne_empty (d : DateTime) : (DateTime.isoformat d == "") = false := by
  apply beq_eq_false_iff_ne.2
  intro hcontra
  have hlen := congrArg (fun s => s.data.length) hcontra
  by_cases hmc : d.microsecond = 0 <;>
    simp [DateTime.isoformat, padNum_length, hmc] at hlen

theorem pyTruthy_iso (d : DateTime) : pyTruthyStr (DateTime.isoformat d) = true := by
  simp [pyTruthyStr, isoformat_ne_empty]

/-- A task, from src/agi_agent/models/task.py (class Task). -/
structure Task where
  description : String
  id : String
  status : TaskStatus
  priority : TaskPriority
  created_at : DateTime
  updated_at : DateTime
  requirements : List String
  constraints : List String
  context : List (String × Value)
  expected_output : Option String
  assigned_to : Option String
  started_at : Option DateTime
  completed_at : Option DateTime
  result : Option Value
  error_message : Option String
  tags : List String
  estimated_duration : Option Nat
  actual_duration : Option Nat

/-- The dictionary produced by Task.to_dict, its fixed keys as typed fields. -/
structure TaskDict where
  id : String
  description : String
  status : String
  priority : String
  created_at : String
  updated_at : String
  requirements : List String
  constraints : List String
  context : List (String × Value)
  expected_output : Option String
  assigned_to : Option String
  started_at : Option String
  completed_at : Option String
  result : Option Value
  error_message : Option String
  tags : List String
  estimated_duration : Option Nat
  actual_duration : Option Nat

/-- Task.to_dict from task.py: every field serialized, the enums via .value, the
datetimes via isoformat, the optional datetimes mapped to None when absent. -/
def Task.to_dict (t : Task) : TaskDict where
  id := t.id
  description := t.description
  status := t.status.value
  priority := t.priority.value
  created_at := t.created_at.isoformat
  updated_at := t.updated_at.isoformat
  requirements := t.requirements
  constraints := t.constraints
  context := t.context
  expected_output := t.expected_output
  assigned_to := t.assigned_to
  started_at := t.started_at.map DateTime.isoformat
  completed_at := t.completed_at.map DateTime.isoformat
  result := t.result
  error_message := t.error_message
  tags := t.tags
  estimated_duration := t.estimated_duration
  actual_duration := t.actual_duration

/-- Task.from_dict from task.py: construct the task with the enum strings decoded
(the Python enum constructors raise on unknown values — modelled as none) and the
datetime fields defaulting to the construction time, then overwrite each datetime
whose serialized string is truthy with its fromisoformat parse (a parse failure
raises — modelled as none). -/
def Task.from_dict (now : DateTime) (data : TaskDict) : Option Task := do
  let status ← TaskStatus.ofValue data.status
  let priority ← TaskPriority.ofValue data.priority
  let task : Task :=
    { description := data.description
      id := data.id
      status := status
      priority := priority
      created_at := now
      updated_at := now
      requirements := data.requirements
      constraints := data.constraints
      context := data.context
      expected_output := data.expected_output
      assigned_to := data.assigned_to
      started_at := Option.none
      completed_at := Option.none
      result := data.result
      error_message := data.error_message
      tags := data.tags
      estimated_duration := data.estimated_duration
      actual_duration := data.actual_duration }
  let task ←
    if pyTruthyStr data.created_at then do
      let dt ← DateTime.fromisoformat data.created_at
      pure { task with created_at := dt }
    else pure task
  let task ←
    if pyTruthyStr data.updated_at then do
      let dt ← DateTime.fromisoformat data.updated_at
      pure { task with updated_at := dt }
    else pure task
  let task ←
    match data.started_at with
    | Option.some sa =>
        if pyTruthyStr sa then do
          let dt ← DateTime.fromisoformat sa
          pure { task with started_at := Option.some dt }
        else pure task
    | Option.none => pure task
  let task ←
    match data.completed_at with
    | Option.some ca =>
        if pyTruthyStr ca then do
          let dt ← DateTime.fromisoformat ca
          pure { task with completed_at := Option.some dt }
        else pure task
    | Option.none => pure task
  pure task

/-- C10: Task.from_dict reconstructs from Task.to_dict a task equal to the original
field by field — id, description, status, priority, requirements, constraints,
context, expected_output, assigned_to, result, error_message, tags, both durations
and all four timestamps — for every task whose datetime fields satisfy the digit
width bounds that the Python datetime type always guarantees. -/
theorem task_round_trip (now : DateTime) (t : Task)
    (h1 : DateTime.wf t.created_at) (h2 : DateTime.wf t.updated_at)
    (h3 : ∀ dt, t.started_at = Option.some dt → DateTime.wf dt)
    (h4 : ∀ dt, t.completed_at = Option.some dt → DateTime.wf dt) :
    Task.from_dict now (Task.to_dict t) = Option.some t := by
  obtain ⟨de, i, st, pr, ca, ua, rq, cn, cx, eo, asg, sa, cpa, res, em, tg, ed, ad⟩ := t
  dsimp only at h1 h2 h3 h4
  rcases sa with _ | d1
  · rcases cpa with _ | d2
    · simp [Task.from_dict, Task.to_dict, taskStatus_round, taskPriority_round,
        pyTruthy_iso, iso_round ca h1, iso_round ua h2]
    · simp [Task.from_dict, Task.to_dict, taskStatus_round, taskPriority_round,
        pyTruthy_iso, iso_round ca h1, iso_round ua h2, iso_round d2 (h4 d2 rfl)]
  · rcases cpa with _ | d2
    · simp [Task.from_dict, Task.to_dict, taskStatus_round, taskPriority_round,
        pyTruthy_iso, iso_round ca h1, iso_round ua h2, iso_round d1 (h3 d1 rfl)]
    · simp [Task.from_dict, Task.to_dict, taskStatus_round, taskPriority_round,
        pyTruthy_iso, iso_round ca h1, iso_round ua h2, iso_round d1 (h3 d1 rfl),
        iso_round d2 (h4 d2 rfl)]

/-- Sample task with concrete field values. -/
def sampleTask : Task :=
  { description := "write report", id := "task-9", status := TaskStatus.in_progress,
    priority := TaskPriority.high, created_at := epoch, updated_at := epoch,
    requirements := ["r1"], constraints := ["c1"],
    context := [("key", Value.str "v")], expected_output := Option.some "a report",
    assigned_to := Option.none, started_at := Option.some ⟨2024, 1, 2, 3, 4, 5, 6⟩,
    completed_at := Option.none, result := Option.none,
    error_message := Option.none, tags := ["t1"],
    estimated_duration := Option.some 30, actual_duration := Option.none }

/-- Witness for C10: the sample task round-trips. -/
theorem task_round_trip_witness :
    Task.from_dict epoch (Task.to_dict sampleTask) = Option.some sampleTask :=
  task_round_trip epoch sampleTask
    (by refine ⟨?_, ?_, ?_, ?_, ?_, ?_, ?_⟩ <;> decide)
    (by refine ⟨?_, ?_, ?_, ?_, ?_, ?_, ?_⟩ <;> decide)
    (fun dt h => by
      injection h with h
      rw [← h]
      refine ⟨?_, ?_, ?_, ?_, ?_, ?_, ?_⟩ <;> decide)
    (fun dt h => nomatch h)

end AgiAgent
